import Mathlib

/-!
Verification of the ifs-parser repository fragment against its specification.

The visible fragment is glue code: a pybind11 binding
(src/grammars/ifs-cloud-parser/bindings/python/binding.cc) exposing the
pre-built grammar table to Python, and a Swift-package C header
(src/grammars/ifs-cloud-parser/bindings/swift/TreeSitterIfsCloudParser/ifs_cloud_parser.h)
declaring the same C-ABI entry point.  The parsing engine itself is absent
from the fragment; per the specification it is modelled here from the
spec's own component design (sections 3, 4, 6, 7, 8).

Naming note: the C symbol is `tree_sitter_ifs_cloud_parser`; in this file it
is embedded under the name `tree_sitter_ifs_cloud_parserEntry` (Lean-side
naming constraint), and the pybind11 module `ifs_cloud_parser` under
`ifs_cloud_parserModule`.
-/

/- ### Embedding of the grammar-table handle and the two C declarations -/

/-- Modelled from the spec: the opaque, versioned grammar-table handle
("Grammar Table: immutable, process-wide, loaded once").  The table itself is
pre-built data absent from the fragment; only the pieces the bindings read are
modelled: an identity (the address of the static table) and the ABI/format
version stored in the table.  -/
structure TSLanguagePtr where
  addr : Nat
  abiVersion : Nat
  deriving DecidableEq, Repr

/-- Modelled from the spec: the ABI version baked into the pre-built
ifs-cloud grammar table (an opaque constant of the generated table, not
present in the fragment; the concrete value is arbitrary in this model). -/
def IFS_CLOUD_TABLE_ABI : Nat := 14

/-- Modelled from the spec: the static, process-wide grammar table produced by
the external generation step ("grammar tables are produced by an external
generation step and loaded as opaque binary/compiled data at startup"). -/
def ifsCloudGrammarTable : TSLanguagePtr :=
  { addr := 1, abiVersion := IFS_CLOUD_TABLE_ABI }

/-- The C entry point `tree_sitter_ifs_cloud_parser` (binding.cc line 4,
ifs_cloud_parser.h line 10): a nullary C function returning the pointer to the
pre-built static grammar table, with no side effect.  Embedded as a pure
function from `Unit`. -/
def tree_sitter_ifs_cloud_parserEntry : Unit → TSLanguagePtr :=
  fun _ => ifsCloudGrammarTable

/-- The tree-sitter runtime accessor `tree_sitter_language_version` used by
binding.cc line 16: reads the ABI/format version out of a grammar table. -/
def tree_sitter_language_version (h : TSLanguagePtr) : Nat :=
  h.abiVersion

/- ### Embedding of the C types of the two declarations (for claim C2) -/

/-- A fragment of the C type grammar, enough to express the two declarations:
named object types, pointers, and const qualification. -/
inductive CType where
  | named (n : String)
  | ptr (pointee : CType)
  | constQ (t : CType)
  deriving DecidableEq, Repr

/-- A C function declaration: symbol name, return type, parameter types. -/
structure CFunDecl where
  name : String
  ret : CType
  args : List CType
  deriving DecidableEq, Repr

/-- The extern declaration in binding.cc line 4:
`extern "C" TSLanguage *tree_sitter_ifs_cloud_parser();`
(C++ `()` declares an empty parameter list). -/
def bindingCcDecl : CFunDecl :=
  { name := "tree_sitter_ifs_cloud_parser"
    ret := CType.ptr (CType.named "TSLanguage")
    args := [] }

/-- The declaration in ifs_cloud_parser.h line 10:
`const TSLanguage *tree_sitter_ifs_cloud_parser(void);`
(`(void)` declares an empty parameter list; the pointee is const-qualified). -/
def swiftHeaderDecl : CFunDecl :=
  { name := "tree_sitter_ifs_cloud_parser"
    ret := CType.ptr (CType.constQ (CType.named "TSLanguage"))
    args := [] }

/-- Two declarations have the same function type when the return type and the
parameter list agree exactly. -/
def sameFunType (a b : CFunDecl) : Bool :=
  decide (a.ret = b.ret) && decide (a.args = b.args)

/-- Erase const qualifiers everywhere in a C type (the C ABI does not encode
them; both declarations resolve to the same symbol and descriptor). -/
def eraseConst : CType → CType
  | CType.named n => CType.named n
  | CType.ptr t => CType.ptr (eraseConst t)
  | CType.constQ t => eraseConst t

/- ### Embedding of the pybind11 module (binding.cc lines 8-17) -/

/-- The observable attributes the PYBIND11_MODULE block installs on the
`ifs_cloud_parser` Python module: the docstring, the `language` function, the
`__version__` string and the `LANGUAGE_VERSION` integer. -/
structure PyModule where
  doc : String
  language : Unit → TSLanguagePtr
  version_attr : String
  language_version_attr : Nat

/-- The module as initialized by the PYBIND11_MODULE body (binding.cc lines
8-17): `language` is bound directly to the entry point
(`m.def("language", &tree_sitter_ifs_cloud_parser, ...)`),
`__version__` to the literal "0.2.0", and `LANGUAGE_VERSION` to
`tree_sitter_language_version(tree_sitter_ifs_cloud_parser())`, all computed
once at import. -/
def ifs_cloud_parserModule : PyModule :=
  { doc := "IFS Cloud PL/SQL Tree-sitter parser"
    language := tree_sitter_ifs_cloud_parserEntry
    version_attr := "0.2.0"
    language_version_attr :=
      tree_sitter_language_version (tree_sitter_ifs_cloud_parserEntry ()) }

/-- Calling the module's `language` function: it returns the bound C
function's result and leaves the module unchanged (the bound C function only
returns the address of a static table; pybind11 registers it without any
write to module state). -/
def callLanguage (m : PyModule) : TSLanguagePtr × PyModule :=
  (m.language (), m)

/-- The module state after `n` calls to `language` following import. -/
def moduleAfterCalls : Nat → PyModule
  | 0 => ifs_cloud_parserModule
  | n + 1 => (callLanguage (moduleAfterCalls n)).2

/- ### Theorems for the binding claims -/

/-- C1: the exposed binding operation `language` is exactly the C entry point
`tree_sitter_ifs_cloud_parser`: it is the very function the module binds, every
call returns the grammar-table handle that entry point produces, unchanged,
and calling it has no other effect on the module, so the handle callers cache
process-wide is the one the pre-built grammar provides. -/
theorem language_is_entry_point :
    ifs_cloud_parserModule.language = tree_sitter_ifs_cloud_parserEntry ∧
    ifs_cloud_parserModule.language () = ifsCloudGrammarTable ∧
    (∀ m : PyModule, callLanguage m = (m.language (), m)) := by
  refine ⟨rfl, rfl, fun m => rfl⟩

/-- C2 counterexample: the claim asserts the Swift header and the Python
binding declare the same function type (argument list and return type).  The
names and argument lists agree, but the return types differ concretely:
binding.cc returns `TSLanguage *` while the header returns
`const TSLanguage *`. -/
theorem swift_python_decl_type_mismatch :
    bindingCcDecl.name = swiftHeaderDecl.name ∧
    bindingCcDecl.args = swiftHeaderDecl.args ∧
    ¬ (bindingCcDecl.ret = swiftHeaderDecl.ret) ∧
    sameFunType bindingCcDecl swiftHeaderDecl = false := by
  refine ⟨rfl, rfl, by decide, by decide⟩

/-- C2 (amended): the Swift header and the Python binding declare the same
C-ABI entry point: the symbol name and the argument list agree exactly, and
the return types agree up to const qualification of the pointee (which the C
ABI does not encode), so both host environments obtain the identical language
descriptor. -/
theorem swift_python_decl_same_symbol :
    bindingCcDecl.name = swiftHeaderDecl.name ∧
    bindingCcDecl.args = swiftHeaderDecl.args ∧
    eraseConst bindingCcDecl.ret = eraseConst swiftHeaderDecl.ret := by
  refine ⟨rfl, rfl, by decide⟩

/-- C3: the module's LANGUAGE_VERSION attribute is the integer obtained by
applying `tree_sitter_language_version` to the handle returned by
`language()`: the value the host reads equals the ABI/format version of
exactly that grammar table. -/
theorem language_version_attr_correct :
    ifs_cloud_parserModule.language_version_attr =
      tree_sitter_language_version (ifs_cloud_parserModule.language ()) ∧
    ifs_cloud_parserModule.language_version_attr =
      (ifs_cloud_parserModule.language ()).abiVersion := by
  exact ⟨rfl, rfl⟩

/-- C10: module initialization fixes the public metadata once: `__version__`
is the exact string "0.2.0", and LANGUAGE_VERSION is computed a single time
at import from `tree_sitter_language_version(tree_sitter_ifs_cloud_parser())`;
after any number of later `language()` calls both attributes still read the
same values. -/
theorem module_metadata_fixed (n : Nat) :
    (moduleAfterCalls n).version_attr = "0.2.0" ∧
    (moduleAfterCalls n).language_version_attr =
      tree_sitter_language_version (tree_sitter_ifs_cloud_parserEntry ()) := by
  induction n with
  | zero => exact ⟨rfl, rfl⟩
  | succ k ih => exact ih

/- ### Spec-modelled parsing engine

The parsing engine (Lexer, Parse Table, Stack Machine, Tree Builder, Error
Recovery, Incremental Re-parser) is absent from the fragment; the spec defines
it as the core the binding sits on.  It is modelled here over the spec's own
minimal arithmetic grammar (section 8's examples): terminals are identifiers
(maximal-munch letter runs), the operator `+`, whitespace emitted as "extra"
tokens attached to the tree (section 4.1), and synthetic one-byte error tokens
for bytes no terminal matches, consumed by Error Recovery (sections 4.1, 4.5).
Source text is a list of byte values. -/

/-- An ASCII space byte (whitespace, lexed as an "extra" token). -/
def isSpaceByte (b : Nat) : Bool := b = 32

/-- An ASCII letter byte (the identifier terminal's alphabet). -/
def isLetterByte (b : Nat) : Bool :=
  (65 ≤ b && b ≤ 90) || (97 ≤ b && b ≤ 122)

/-- The `+` operator byte. -/
def isPlusByte (b : Nat) : Bool := b = 43

/-- Modelled from the spec: terminal symbols of the minimal arithmetic
grammar, plus the whitespace "extra" symbol and the synthetic error token the
Lexer emits when no terminal matches (section 4.1 "Failure"). -/
inductive TokKind where
  | identTok
  | opTok
  | wsTok
  | errTok
  deriving DecidableEq, Repr

/-- A lexed terminal token: kind and byte-range [startB, endB). -/
structure Token where
  kind : TokKind
  startB : Nat
  endB : Nat
  deriving DecidableEq, Repr

/-- Maximal munch: the first position at or after `p` whose byte does not
satisfy `pred` (or the end of input).  -/
def munch (pred : Nat → Bool) (src : List Nat) (p : Nat) : Nat :=
  if h : p < src.length then
    if pred (src.get ⟨p, h⟩) then munch pred src (p + 1) else p
  else p
termination_by src.length - p

theorem munch_ge (pred : Nat → Bool) (src : List Nat) (p : Nat) :
    p ≤ munch pred src p := by
  unfold munch
  split
  · split
    · exact Nat.le_trans (Nat.le_succ p) (munch_ge pred src (p + 1))
    · exact Nat.le_refl p
  · exact Nat.le_refl p
termination_by src.length - p

theorem munch_le_length (pred : Nat → Bool) (src : List Nat) (p : Nat)
    (hp : p ≤ src.length) : munch pred src p ≤ src.length := by
  unfold munch
  split
  · split
    · exact munch_le_length pred src (p + 1) (by omega)
    · exact hp
  · exact hp
termination_by src.length - p

/-- Lexer contract (section 4.1): at byte position `p`, return the
longest-match terminal token starting there: a whitespace "extra" token, an
identifier (maximal munch), the `+` operator, or — when no terminal matches —
a synthetic one-byte error token for Error Recovery.  Returns `none` exactly
at end of input. -/
def nextToken (src : List Nat) (p : Nat) : Option Token :=
  if h : p < src.length then
    if isSpaceByte (src.get ⟨p, h⟩) then
      some { kind := TokKind.wsTok, startB := p, endB := munch isSpaceByte src p }
    else if isLetterByte (src.get ⟨p, h⟩) then
      some { kind := TokKind.identTok, startB := p, endB := munch isLetterByte src p }
    else if isPlusByte (src.get ⟨p, h⟩) then
      some { kind := TokKind.opTok, startB := p, endB := p + 1 }
    else
      some { kind := TokKind.errTok, startB := p, endB := p + 1 }
  else none

theorem munch_gt (pred : Nat → Bool) (src : List Nat) (p : Nat)
    (h : p < src.length) (hb : pred (src.get ⟨p, h⟩) = true) :
    p < munch pred src p := by
  unfold munch
  rw [dif_pos h, if_pos hb]
  exact Nat.lt_of_lt_of_le (Nat.lt_succ_self p) (munch_ge pred src (p + 1))

theorem nextToken_none_iff (src : List Nat) (p : Nat) :
    nextToken src p = none ↔ src.length ≤ p := by
  unfold nextToken
  split
  case isTrue h =>
    constructor
    · intro hcontra
      exfalso
      revert hcontra
      split
      · simp
      · split
        · simp
        · split <;> simp
    · intro hl
      omega
  case isFalse h =>
    simp only [true_iff]
    omega

theorem nextToken_start (src : List Nat) (p : Nat) (t : Token)
    (h : nextToken src p = some t) : t.startB = p := by
  unfold nextToken at h
  split at h
  · split at h
    · cases h; rfl
    · split at h
      · cases h; rfl
      · split at h <;> (cases h; rfl)
  · cases h

theorem nextToken_bounds (src : List Nat) (p : Nat) (t : Token)
    (h : nextToken src p = some t) : p < t.endB ∧ t.endB ≤ src.length := by
  unfold nextToken at h
  split at h
  case isTrue hp =>
    split at h
    case isTrue hb =>
      cases h
      exact ⟨munch_gt _ src p hp hb, munch_le_length _ src p (by omega)⟩
    case isFalse =>
      split at h
      case isTrue hb =>
        cases h
        exact ⟨munch_gt _ src p hp hb, munch_le_length _ src p (by omega)⟩
      case isFalse =>
        split at h <;> (cases h; exact ⟨Nat.lt_succ_self p, hp⟩)
  case isFalse => cases h

/-- The Lexer driven to completion from position `p`: the token stream the
Stack Machine consumes.  Each step resumes at the previous token's end;
forward progress of every step (`nextToken_bounds`) makes this terminate. -/
def lexFrom (src : List Nat) (p : Nat) : List Token :=
  match h : nextToken src p with
  | none => []
  | some t => t :: lexFrom src t.endB
termination_by src.length - p
decreasing_by
  have := nextToken_bounds src p t h
  omega

/- ### Syntax tree data model (spec section 3) -/

/-- Modelled from the spec: a CST node — "a symbol id, a byte-range
[start,end), a child sequence (ordered, may be empty), optional field-name
tags on children, and an is-error/is-missing flag".  The field tag is carried
on the child (the minimal arithmetic grammar declares no fields, so it is
`none` everywhere in built trees). -/
inductive Node where
  | node (sym : Nat) (startB : Nat) (endB : Nat) (isError : Bool)
      (isMissing : Bool) (field : Option String) (children : List Node)

def Node.sym : Node → Nat
  | Node.node y _ _ _ _ _ _ => y

def Node.startB : Node → Nat
  | Node.node _ s _ _ _ _ _ => s

def Node.endB : Node → Nat
  | Node.node _ _ e _ _ _ _ => e

def Node.isError : Node → Bool
  | Node.node _ _ _ er _ _ _ => er

def Node.isMissing : Node → Bool
  | Node.node _ _ _ _ ms _ _ => ms

def Node.children : Node → List Node
  | Node.node _ _ _ _ _ _ cs => cs

/-- Symbol ids of the modelled grammar: 0 the root expression symbol, then
identifier, operator, the whitespace "extra" symbol, and the error symbol. -/
def symOfKind : TokKind → Nat
  | TokKind.identTok => 1
  | TokKind.opTok => 2
  | TokKind.wsTok => 3
  | TokKind.errTok => 4

/-- The root symbol id of the modelled grammar. -/
def rootSym : Nat := 0

/-- Modelled from the spec: the Parse Table's states (sections 4.2, 4.3) for
the minimal arithmetic grammar `expression = identifier (op identifier)*`:
the automaton either expects an operand (an identifier) or expects an
operator (`+`). -/
inductive PState where
  | expectOperand
  | expectOperator
  deriving DecidableEq, Repr

/-- The automaton's initial state: an expression starts with an operand. -/
def startState : PState := PState.expectOperand

/-- The Parse Table lookup (section 4.2) combined with Error Recovery's
verdict (section 4.5): whether the token at hand is a lexical or syntax error
in the given state.  Whitespace is an "extra" that never participates in
grammar reduction; a synthetic error token is a lexical error wherever it
appears; an identifier is a syntax error in operator position and `+` a
syntax error in operand position.  The verdict is made when the token is
shifted, from the state alone (the left context), so a committed subtree is
never re-flagged by later input — which section 3's incremental-equivalence
invariant requires of reused subtrees. -/
def tokenErrFlag (st : PState) (k : TokKind) : Bool :=
  match k with
  | TokKind.wsTok => false
  | TokKind.errTok => true
  | TokKind.identTok => decide (st = PState.expectOperator)
  | TokKind.opTok => decide (st = PState.expectOperand)

/-- The automaton transition (sections 4.2, 4.3): a valid identifier shifts
to operator position and a valid `+` back to operand position; extras,
lexical garbage and syntax-error tokens are skipped by Error Recovery and
leave the state unchanged (resynchronization by skipping, section 4.5). -/
def stepState (st : PState) (k : TokKind) : PState :=
  match st, k with
  | PState.expectOperand, TokKind.identTok => PState.expectOperator
  | PState.expectOperator, TokKind.opTok => PState.expectOperand
  | _, _ => st

/-- Tree Builder for terminals (spec section 4.4): a leaf node carrying the
lexed byte range, error-flagged when the Parse Table rejects the token in the
current state (Error Recovery, section 4.5). -/
def tokenNode (st : PState) (t : Token) : Node :=
  Node.node (symOfKind t.kind) t.startB t.endB
    (tokenErrFlag st t.kind) false none []

/-- The Stack Machine driving the Tree Builder over the token stream
(section 4.3): each token becomes a leaf node flagged by the current state's
table verdict, and the automaton steps to the next state. -/
def buildNodes (st : PState) : List Token → List Node
  | [] => []
  | t :: ts => tokenNode st t :: buildNodes (stepState st t.kind) ts

/-- The automaton state after consuming a token stream. -/
def finalState (st : PState) : List Token → PState
  | [] => st
  | t :: ts => finalState (stepState st t.kind) ts

/-- Error Recovery at end of input (section 4.5's insertion repair): when the
stream ends while an operand is still expected (e.g. the input "a +"), a
zero-width is-missing identifier node is inserted at the end of the input —
the data model's is-missing flag (section 3). -/
def closeNodes (st : PState) (len : Nat) : List Node :=
  match st with
  | PState.expectOperand =>
      [Node.node (symOfKind TokKind.identTok) len len false true none []]
  | PState.expectOperator => []

/-- Recover a terminal kind from a node's symbol id (the inverse of
`symOfKind`; the root symbol and unknown symbols map to none). -/
def kindOfSym (sym : Nat) : Option TokKind :=
  if sym = symOfKind TokKind.identTok then some TokKind.identTok
  else if sym = symOfKind TokKind.opTok then some TokKind.opTok
  else if sym = symOfKind TokKind.wsTok then some TokKind.wsTok
  else if sym = symOfKind TokKind.errTok then some TokKind.errTok
  else none

/-- The automaton step induced by an already-built node (used by the
Incremental Re-parser to resume the Stack Machine after reused subtrees). -/
def stepStateNode (st : PState) (c : Node) : PState :=
  match kindOfSym c.sym with
  | some k => stepState st k
  | none => st

/-- The automaton state after a list of built nodes. -/
def stateAfterNodes (st : PState) : List Node → PState
  | [] => st
  | c :: cs => stateAfterNodes (stepStateNode st c) cs

/-- A token stream with no lexical or syntax error: every token passes the
table's verdict and the stream ends with a complete expression. -/
def seqOk (st : PState) : List Token → Bool
  | [] => decide (st = PState.expectOperator)
  | t :: ts => !(tokenErrFlag st t.kind) && seqOk (stepState st t.kind) ts

/-- Modelled from the spec: `parse` on a fresh input (sections 4.3, 6, 8):
the Lexer feeds tokens to the Stack Machine from byte 0; shift and reduce
decisions flag lexically or syntactically invalid tokens as error nodes and
Error Recovery inserts a missing operand when the input ends mid-expression;
the Accept action leaves a single root covering [0, length) whose ordered
children are the terminal nodes, whitespace attached as "extra" nodes.
Total, hence terminating, and synchronous. -/
def parseRoot (src : List Nat) : Node :=
  Node.node rootSym 0 src.length false false none
    (buildNodes startState (lexFrom src 0) ++
      closeNodes (finalState startState (lexFrom src 0)) src.length)

/-- A token list tiles the byte interval [p, q): each token starts where its
predecessor ended, is non-empty, and the last one ends at q. -/
def tileB (p : Nat) : List Token → Nat → Bool
  | [], q => decide (p = q)
  | t :: ts, q => decide (t.startB = p) && decide (p < t.endB) && tileB t.endB ts q

theorem lexFrom_tile (src : List Nat) (p : Nat) (hp : p ≤ src.length) :
    tileB p (lexFrom src p) src.length = true := by
  unfold lexFrom
  split
  case h_1 hnone =>
    have := (nextToken_none_iff src p).mp hnone
    simp only [tileB, decide_eq_true_eq]
    omega
  case h_2 t hsome =>
    have hb := nextToken_bounds src p t hsome
    have hs := nextToken_start src p t hsome
    simp only [tileB, Bool.and_eq_true, decide_eq_true_eq]
    exact ⟨⟨hs, hb.1⟩, lexFrom_tile src t.endB hb.2⟩
termination_by src.length - p
decreasing_by
  omega

theorem tile_bounds (ts : List Token) (p q : Nat) (h : tileB p ts q = true) :
    p ≤ q ∧ ∀ t ∈ ts, p ≤ t.startB ∧ t.startB < t.endB ∧ t.endB ≤ q := by
  induction ts generalizing p with
  | nil =>
    simp only [tileB, decide_eq_true_eq] at h
    exact ⟨Nat.le_of_eq h, by intro t ht; cases ht⟩
  | cons t ts ih =>
    simp only [tileB, Bool.and_eq_true, decide_eq_true_eq] at h
    obtain ⟨⟨hst, hlt⟩, htl⟩ := h
    obtain ⟨hle, hall⟩ := ih t.endB htl
    refine ⟨by omega, ?_⟩
    intro u hu
    cases hu with
    | head => exact ⟨Nat.le_of_eq hst.symm, by omega, by omega⟩
    | tail _ hmem =>
      have := hall u hmem
      exact ⟨by omega, this.2.1, this.2.2⟩

/- ### Structural invariants (spec section 3, claim C6) -/

/-- Sibling ordering: scanning left to right from lower bound `lo`, every
child starts at or after the previous child's end (ranges non-overlapping and
monotonically increasing) and has a well-ordered range. -/
def nodesOrdered (lo : Nat) : List Node → Bool
  | [] => true
  | c :: cs =>
      decide (lo ≤ c.startB) && decide (c.startB ≤ c.endB) && nodesOrdered c.endB cs

mutual

/-- The spec's structural invariants, recursively: ordered non-overlapping
siblings, every child's range inside the parent's range, at every level. -/
def Node.wf : Node → Bool
  | Node.node _ s e _ _ _ cs =>
      decide (s ≤ e) && nodesOrdered s cs &&
      cs.all (fun c => decide (s ≤ c.startB) && decide (c.endB ≤ e)) &&
      childrenWf cs

def childrenWf : List Node → Bool
  | [] => true
  | c :: cs => c.wf && childrenWf cs

end

theorem tokenNode_startB (st : PState) (t : Token) :
    (tokenNode st t).startB = t.startB := rfl

theorem tokenNode_endB (st : PState) (t : Token) :
    (tokenNode st t).endB = t.endB := rfl

theorem closeNodes_mem (st : PState) (len : Nat) (c : Node)
    (hc : c ∈ closeNodes st len) : c.startB = len ∧ c.endB = len := by
  cases st with
  | expectOperand =>
    have hc2 : c ∈
        [Node.node (symOfKind TokKind.identTok) len len false true none []] := hc
    rw [List.mem_singleton] at hc2
    subst hc2
    exact ⟨rfl, rfl⟩
  | expectOperator => cases hc

theorem buildNodes_mem_shape (st : PState) (ts : List Token) (c : Node)
    (hc : c ∈ buildNodes st ts) :
    ∃ t ∈ ts, ∃ st2, c = tokenNode st2 t := by
  induction ts generalizing st with
  | nil => cases hc
  | cons t ts ih =>
    rcases List.mem_cons.mp hc with heq | htail
    · exact ⟨t, List.mem_cons_self t ts, st, heq⟩
    · obtain ⟨u, hu, st2, he⟩ := ih (stepState st t.kind) htail
      exact ⟨u, List.mem_cons_of_mem t hu, st2, he⟩

theorem build_close_ordered (ts : List Token) (st st2 : PState) (p len : Nat)
    (h : tileB p ts len = true) :
    nodesOrdered p (buildNodes st ts ++ closeNodes st2 len) = true := by
  induction ts generalizing p st with
  | nil =>
    simp only [tileB, decide_eq_true_eq] at h
    cases st2 with
    | expectOperand =>
      simp only [buildNodes, closeNodes, List.nil_append, nodesOrdered, Node.startB,
        Node.endB, Bool.and_eq_true, decide_eq_true_eq, and_true]
      omega
    | expectOperator => rfl
  | cons t ts ih =>
    simp only [tileB, Bool.and_eq_true, decide_eq_true_eq] at h
    obtain ⟨⟨hst, hlt⟩, htl⟩ := h
    show nodesOrdered p (tokenNode st t ::
      (buildNodes (stepState st t.kind) ts ++ closeNodes st2 len)) = true
    simp only [nodesOrdered, Bool.and_eq_true, decide_eq_true_eq,
      tokenNode_startB, tokenNode_endB]
    exact ⟨⟨by omega, by omega⟩, ih (stepState st t.kind) t.endB htl⟩

theorem build_close_wf (ts : List Token) (st st2 : PState) (p len : Nat)
    (h : tileB p ts len = true) :
    childrenWf (buildNodes st ts ++ closeNodes st2 len) = true := by
  induction ts generalizing p st with
  | nil =>
    cases st2 with
    | expectOperand =>
      show childrenWf
        [Node.node (symOfKind TokKind.identTok) len len false true none []] = true
      simp [childrenWf, Node.wf, nodesOrdered]
    | expectOperator => rfl
  | cons t ts ih =>
    simp only [tileB, Bool.and_eq_true, decide_eq_true_eq] at h
    obtain ⟨⟨hst, hlt⟩, htl⟩ := h
    show ((tokenNode st t).wf &&
      childrenWf (buildNodes (stepState st t.kind) ts ++ closeNodes st2 len)) = true
    rw [Bool.and_eq_true]
    constructor
    · simp only [tokenNode, Node.wf, nodesOrdered, List.all_nil, childrenWf,
        Bool.and_eq_true, decide_eq_true_eq, and_true]
      omega
    · exact ih (stepState st t.kind) t.endB htl

/-- Well-formedness of every freshly parsed tree: the token tiling of
[0, length) yields ordered, contained, leaf-well-formed children, and the
possible trailing zero-width missing-operand node sits at the end of the
input. -/
theorem parseRoot_wf (src : List Nat) : (parseRoot src).wf = true := by
  have htile := lexFrom_tile src 0 (Nat.zero_le _)
  have hb := tile_bounds (lexFrom src 0) 0 src.length htile
  show (decide (0 ≤ src.length) &&
      nodesOrdered 0 (buildNodes startState (lexFrom src 0) ++
        closeNodes (finalState startState (lexFrom src 0)) src.length) &&
      (buildNodes startState (lexFrom src 0) ++
        closeNodes (finalState startState (lexFrom src 0)) src.length).all
        (fun c => decide (0 ≤ c.startB) && decide (c.endB ≤ src.length)) &&
      childrenWf (buildNodes startState (lexFrom src 0) ++
        closeNodes (finalState startState (lexFrom src 0)) src.length)) = true
  simp only [Bool.and_eq_true, decide_eq_true_eq]
  refine ⟨⟨⟨Nat.zero_le _, build_close_ordered _ _ _ 0 _ htile⟩, ?_⟩,
    build_close_wf _ _ _ 0 _ htile⟩
  rw [List.all_eq_true]
  intro c hc
  simp only [Bool.and_eq_true, decide_eq_true_eq]
  refine ⟨Nat.zero_le _, ?_⟩
  rcases List.mem_append.mp hc with hbm | hcl
  · obtain ⟨t, htm, st2, rfl⟩ := buildNodes_mem_shape _ _ _ hbm
    have := hb.2 t htm
    rw [tokenNode_endB]
    omega
  · exact Nat.le_of_eq (closeNodes_mem _ _ _ hcl).2

theorem lexFrom_length_le (src : List Nat) (p : Nat) (hp : p ≤ src.length) :
    (lexFrom src p).length ≤ src.length - p := by
  have htile := lexFrom_tile src p hp
  generalize hts : lexFrom src p = ts at htile
  clear hts
  induction ts generalizing p with
  | nil => simp
  | cons t ts ih =>
    simp only [tileB, Bool.and_eq_true, decide_eq_true_eq] at htile
    obtain ⟨⟨hst, hlt⟩, htl⟩ := htile
    have hb := tile_bounds ts t.endB src.length htl
    have := ih t.endB (by omega) htl
    simp only [List.length_cons]
    omega

/-- C4: for every input byte sequence, `parse` is a total synchronous
function (hence terminates) and returns a single syntax tree whose root node
byte-range equals [0, length(input)), carrying error annotations as
error-flagged nodes. -/
theorem parse_root_range (src : List Nat) :
    (parseRoot src).startB = 0 ∧ (parseRoot src).endB = src.length ∧
    (parseRoot src).isError = false := by
  exact ⟨rfl, rfl, rfl⟩

/-- C8: forward progress of lexing and error recovery: every token the Lexer
or Error Recovery emits (in particular the synthetic error token for a byte no
terminal matches) starts at the cursor and strictly advances it, so the number
of steps is bounded by the remaining bytes and parsing any malformed input
terminates. -/
theorem recovery_forward_progress (src : List Nat) (p : Nat) (t : Token)
    (h : nextToken src p = some t) :
    t.startB = p ∧ p < t.endB ∧
    (lexFrom src p).length ≤ src.length - p := by
  have hb := nextToken_bounds src p t h
  exact ⟨nextToken_start src p t h, hb.1,
    lexFrom_length_le src p (Nat.le_trans (Nat.le_of_lt hb.1) hb.2)⟩

/-- C8 witness: on the input consisting of the single byte 63 (`?`, matched
by no terminal), error recovery emits a one-byte error token at cursor 0 and
the theorem's conclusions hold concretely. -/
theorem recovery_forward_progress_witness :
    nextToken [63] 0 = some { kind := TokKind.errTok, startB := 0, endB := 1 } ∧
    ({ kind := TokKind.errTok, startB := 0, endB := 1 } : Token).startB = 0 ∧
    0 < ({ kind := TokKind.errTok, startB := 0, endB := 1 } : Token).endB ∧
    (lexFrom [63] 0).length ≤ [63].length - 0 := by
  refine ⟨by decide, ?_⟩
  exact recovery_forward_progress [63] 0 _ (by decide)

/- ### Edits and the incremental re-parser (spec sections 3, 4.6) -/

/-- Modelled from the spec: an Edit record
"{start_byte, old_end_byte, new_end_byte} describing a text mutation". -/
structure Edit where
  startB : Nat
  oldEndB : Nat
  newEndB : Nat
  deriving DecidableEq, Repr

/-- Applying an edit to source text: the bytes of [start_byte, old_end_byte)
are replaced by the new bytes `repl`. -/
def applyEdit (src : List Nat) (e : Edit) (repl : List Nat) : List Nat :=
  src.take e.startB ++ repl ++ src.drop e.oldEndB

/-- An edit is inside the bounds of text of length `len` and consistent with
its replacement bytes. -/
def editFits (len : Nat) (e : Edit) (repl : List Nat) : Bool :=
  decide (e.startB ≤ e.oldEndB) && decide (e.oldEndB ≤ len) &&
  decide (e.newEndB = e.startB + repl.length)

/-- Length of the text after an in-bounds edit. -/
def editedLength (len : Nat) (e : Edit) (repl : List Nat) : Nat :=
  e.startB + repl.length + (len - e.oldEndB)

/-- Every edit of the sequence is inside the bounds of the text it is applied
to (edit i + 1 applies to the text edit i produced). -/
def editsFit (len : Nat) : List (Edit × List Nat) → Bool
  | [] => true
  | (e, repl) :: es => editFits len e repl && editsFit (editedLength len e repl) es

/-- The byte position the incremental re-parser restarts the Lexer from:
after the last reused subtree, or 0 when nothing is reusable. -/
def resumePos (cs : List Node) : Nat :=
  (cs.getLast?).elim 0 (fun c => c.endB)

/-- Modelled from the spec: the Incremental Re-parser (section 4.6): given a
prior tree and the edited text, it reuses the subtrees that lie entirely
before the edited region (their structure provably unchanged: the Lexer's and
the Parse Table's decisions for them read only bytes and states the edit did
not touch), resumes the Stack Machine in the automaton state the reused
subtrees induce, and re-parses from the first invalidated boundary, re-lexing
the remainder of the new text and re-running end-of-input recovery. -/
def incrementalParse (t : Node) (e : Edit) (newSrc : List Nat) : Node :=
  Node.node rootSym 0 newSrc.length false false none
    (t.children.takeWhile (fun c => decide (c.endB < e.startB)) ++
      (buildNodes
        (stateAfterNodes startState
          (t.children.takeWhile (fun c => decide (c.endB < e.startB))))
        (lexFrom newSrc
          (resumePos (t.children.takeWhile (fun c => decide (c.endB < e.startB))))) ++
        closeNodes
          (finalState
            (stateAfterNodes startState
              (t.children.takeWhile (fun c => decide (c.endB < e.startB))))
            (lexFrom newSrc
              (resumePos
                (t.children.takeWhile (fun c => decide (c.endB < e.startB))))))
          newSrc.length))

/-- Incremental re-parsing across an ordered edit sequence: each edit is
applied to the current text and the current tree is repaired against the new
text, threading (tree, text) left to right. -/
def incrementalReparse (t : Node) (src : List Nat) :
    List (Edit × List Nat) → Node × List Nat
  | [] => (t, src)
  | (e, repl) :: es =>
      incrementalReparse (incrementalParse t e (applyEdit src e repl))
        (applyEdit src e repl) es

/-- The edited document an edit sequence produces from `src`. -/
def applyEdits (src : List Nat) (es : List (Edit × List Nat)) : List Nat :=
  es.foldl (fun s er => applyEdit s er.1 er.2) src

/- ### Lexer locality: decisions below the edit boundary are unchanged -/

theorem bytes_eq_of_take (A B : List Nat) (n p : Nat) (hAB : A.take n = B.take n)
    (hp : p < n) (hA : p < A.length) (hB : p < B.length) :
    A.get ⟨p, hA⟩ = B.get ⟨p, hB⟩ := by
  have h1 : A[p]? = B[p]? := by
    have h2 := congrArg (fun l => l[p]?) hAB
    simp only [List.getElem?_take, hp, if_pos] at h2
    exact h2
  rw [List.getElem?_eq_getElem hA, List.getElem?_eq_getElem hB] at h1
  rw [List.get_eq_getElem, List.get_eq_getElem]
  exact Option.some.inj h1

theorem munch_congr (pred : Nat → Bool) (A B : List Nat) (n : Nat)
    (hAB : A.take n = B.take n) (hA : n ≤ A.length) (hB : n ≤ B.length)
    (p : Nat) (hm : munch pred A p < n) :
    munch pred A p = munch pred B p := by
  have hpn : p < n := Nat.lt_of_le_of_lt (munch_ge pred A p) hm
  have hpA : p < A.length := Nat.lt_of_lt_of_le hpn hA
  have hpB : p < B.length := Nat.lt_of_lt_of_le hpn hB
  have hbyte := bytes_eq_of_take A B n p hAB hpn hpA hpB
  by_cases hpred : pred (A.get ⟨p, hpA⟩) = true
  · have hstepA : munch pred A p = munch pred A (p + 1) := by
      conv_lhs => unfold munch
      rw [dif_pos hpA, if_pos hpred]
    have hstepB : munch pred B p = munch pred B (p + 1) := by
      conv_lhs => unfold munch
      rw [dif_pos hpB, if_pos (hbyte ▸ hpred)]
    rw [hstepA, hstepB]
    exact munch_congr pred A B n hAB hA hB (p + 1) (by rw [← hstepA]; exact hm)
  · have hstepA : munch pred A p = p := by
      conv_lhs => unfold munch
      rw [dif_pos hpA, if_neg hpred]
    have hstepB : munch pred B p = p := by
      conv_lhs => unfold munch
      rw [dif_pos hpB, if_neg (hbyte ▸ hpred)]
    rw [hstepA, hstepB]
termination_by n - p

theorem nextToken_congr (A B : List Nat) (n : Nat) (hAB : A.take n = B.take n)
    (hA : n ≤ A.length) (hB : n ≤ B.length) (p : Nat) (t : Token)
    (ht : nextToken A p = some t) (hend : t.endB < n) :
    nextToken B p = some t := by
  have hs := nextToken_start A p t ht
  have hb := nextToken_bounds A p t ht
  have hpn : p < n := by omega
  have hpA : p < A.length := by omega
  have hpB : p < B.length := by omega
  have hbyte := bytes_eq_of_take A B n p hAB hpn hpA hpB
  unfold nextToken at ht ⊢
  rw [dif_pos hpA] at ht
  rw [dif_pos hpB, ← hbyte]
  split at ht
  case isTrue hsp =>
    rw [if_pos hsp]
    cases ht
    rw [← munch_congr isSpaceByte A B n hAB hA hB p hend]
  case isFalse hsp =>
    rw [if_neg hsp]
    split at ht
    case isTrue hlt =>
      rw [if_pos hlt]
      cases ht
      rw [← munch_congr isLetterByte A B n hAB hA hB p hend]
    case isFalse hlt =>
      rw [if_neg hlt]
      split at ht
      case isTrue hplus =>
        rw [if_pos hplus]
        exact ht
      case isFalse hplus =>
        rw [if_neg hplus]
        exact ht

theorem lexFrom_none (src : List Nat) (p : Nat) (h : nextToken src p = none) :
    lexFrom src p = [] := by
  unfold lexFrom
  split
  case h_1 => rfl
  case h_2 u hu => rw [h] at hu; cases hu

theorem lexFrom_some (src : List Nat) (p : Nat) (t : Token)
    (h : nextToken src p = some t) :
    lexFrom src p = t :: lexFrom src t.endB := by
  conv_lhs => unfold lexFrom
  split
  case h_1 hn => rw [h] at hn; cases hn
  case h_2 u hu => rw [h] at hu; cases hu; rfl

/-- The restart position tracked over token lists, with default `p` when no
token was accumulated. -/
def resumeFrom (p : Nat) (ts : List Token) : Nat :=
  (ts.getLast?).elim p (fun t => t.endB)

theorem resumeFrom_cons (p : Nat) (t : Token) (ts : List Token) :
    resumeFrom p (t :: ts) = resumeFrom t.endB ts := by
  cases ts with
  | nil => rfl
  | cons u us => rfl

theorem buildNodes_getLast_endB (st : PState) (ts : List Token) :
    ((buildNodes st ts).getLast?).map Node.endB = (ts.getLast?).map Token.endB := by
  induction ts generalizing st with
  | nil => rfl
  | cons t ts ih =>
    cases ts with
    | nil => rfl
    | cons u us =>
      show ((tokenNode st t :: (tokenNode (stepState st t.kind) u ::
          buildNodes (stepState (stepState st t.kind) u.kind) us)).getLast?).map
          Node.endB = ((t :: u :: us).getLast?).map Token.endB
      rw [List.getLast?_cons_cons, List.getLast?_cons_cons]
      exact ih (stepState st t.kind)

theorem resumePos_buildNodes (st : PState) (ts : List Token) :
    resumePos (buildNodes st ts) = resumeFrom 0 ts := by
  have h := buildNodes_getLast_endB st ts
  unfold resumePos resumeFrom
  cases hb : (buildNodes st ts).getLast? with
  | none =>
    rw [hb] at h
    cases ht : ts.getLast? with
    | none => rfl
    | some u =>
      rw [ht] at h
      cases h
  | some c =>
    rw [hb] at h
    cases ht : ts.getLast? with
    | none =>
      rw [ht] at h
      cases h
    | some u =>
      rw [ht] at h
      simp only [Option.map_some'] at h
      simp only [Option.elim]
      exact Option.some.inj h

theorem takeWhile_build_close (ts : List Token) (st st2 : PState) (n len : Nat)
    (hn : n ≤ len) :
    (buildNodes st ts ++ closeNodes st2 len).takeWhile
        (fun c => decide (c.endB < n)) =
      buildNodes st (ts.takeWhile (fun t => decide (t.endB < n))) := by
  induction ts generalizing st with
  | nil =>
    cases st2 with
    | expectOperand =>
      show List.takeWhile _
        [Node.node (symOfKind TokKind.identTok) len len false true none []] = []
      rw [List.takeWhile_cons_of_neg]
      simp only [Node.endB, decide_eq_true_eq]
      omega
    | expectOperator => rfl
  | cons t ts ih =>
    show List.takeWhile _ (tokenNode st t ::
      (buildNodes (stepState st t.kind) ts ++ closeNodes st2 len)) = _
    by_cases hend : t.endB < n
    · rw [List.takeWhile_cons_of_pos
        (by simp only [tokenNode_endB, decide_eq_true_eq]; exact hend)]
      rw [ih (stepState st t.kind)]
      rw [List.takeWhile_cons_of_pos (by simpa using hend)]
      rfl
    · rw [List.takeWhile_cons_of_neg
        (by simp only [tokenNode_endB, decide_eq_true_eq]; exact hend)]
      rw [List.takeWhile_cons_of_neg (by simpa using hend)]
      rfl

theorem kindOfSym_symOfKind (k : TokKind) : kindOfSym (symOfKind k) = some k := by
  cases k <;> rfl

theorem stateAfterNodes_buildNodes (st st2 : PState) (ts : List Token) :
    stateAfterNodes st (buildNodes st2 ts) = finalState st ts := by
  induction ts generalizing st st2 with
  | nil => rfl
  | cons t ts ih =>
    show stateAfterNodes (stepStateNode st (tokenNode st2 t))
      (buildNodes (stepState st2 t.kind) ts) = finalState (stepState st t.kind) ts
    have hstep : stepStateNode st (tokenNode st2 t) = stepState st t.kind := by
      show (match kindOfSym (symOfKind t.kind) with
        | some k => stepState st k
        | none => st) = stepState st t.kind
      rw [kindOfSym_symOfKind]
    rw [hstep]
    exact ih (stepState st t.kind) (stepState st2 t.kind)

theorem buildNodes_append (st : PState) (xs ys : List Token) :
    buildNodes st (xs ++ ys) =
      buildNodes st xs ++ buildNodes (finalState st xs) ys := by
  induction xs generalizing st with
  | nil => rfl
  | cons t ts ih =>
    show tokenNode st t :: buildNodes (stepState st t.kind) (ts ++ ys) =
      tokenNode st t :: (buildNodes (stepState st t.kind) ts ++
        buildNodes (finalState (stepState st t.kind) ts) ys)
    rw [ih (stepState st t.kind)]

theorem finalState_append (st : PState) (xs ys : List Token) :
    finalState st (xs ++ ys) = finalState (finalState st xs) ys := by
  induction xs generalizing st with
  | nil => rfl
  | cons t ts ih => exact ih (stepState st t.kind)

/-- Lexing the edited text equals the reusable token prefix of the old text
(the tokens whose extent, lookahead included, lies strictly below the edit
boundary `n`) followed by re-lexing the edited text from the first
invalidated boundary. -/
theorem lexFrom_split (A B : List Nat) (n : Nat) (hAB : A.take n = B.take n)
    (hA : n ≤ A.length) (hB : n ≤ B.length) (p : Nat) :
    lexFrom B p =
      (lexFrom A p).takeWhile (fun t => decide (t.endB < n)) ++
        lexFrom B
          (resumeFrom p ((lexFrom A p).takeWhile (fun t => decide (t.endB < n)))) := by
  cases hnt : nextToken A p with
  | none =>
    rw [lexFrom_none A p hnt]
    simp [resumeFrom]
  | some t =>
    have hb := nextToken_bounds A p t hnt
    rw [lexFrom_some A p t hnt]
    by_cases hend : t.endB < n
    · rw [List.takeWhile_cons_of_pos (by simpa using hend)]
      have hB' := nextToken_congr A B n hAB hA hB p t hnt hend
      rw [lexFrom_some B p t hB']
      rw [resumeFrom_cons, List.cons_append]
      exact congrArg (fun l => t :: l) (lexFrom_split A B n hAB hA hB t.endB)
    · rw [List.takeWhile_cons_of_neg (by simpa using hend)]
      simp [resumeFrom]
termination_by A.length - p
decreasing_by
  omega

theorem applyEdit_take (D repl : List Nat) (e : Edit)
    (hse : e.startB ≤ D.length) :
    (applyEdit D e repl).take e.startB = D.take e.startB := by
  unfold applyEdit
  rw [List.append_assoc]
  exact List.take_left' (by rw [List.length_take]; omega)

theorem applyEdit_length (D repl : List Nat) (e : Edit)
    (hfit : editFits D.length e repl = true) :
    (applyEdit D e repl).length = editedLength D.length e repl := by
  simp only [editFits, Bool.and_eq_true, decide_eq_true_eq] at hfit
  simp only [applyEdit, editedLength, List.length_append, List.length_take,
    List.length_drop]
  omega

/-- The incremental re-parse of a single in-bounds edit rebuilds exactly the
tree a from-scratch parse of the edited text builds. -/
theorem incrementalParse_eq_parse (D repl : List Nat) (e : Edit)
    (hfit : editFits D.length e repl = true) :
    incrementalParse (parseRoot D) e (applyEdit D e repl) =
      parseRoot (applyEdit D e repl) := by
  have hfall := hfit
  simp only [editFits, Bool.and_eq_true, decide_eq_true_eq] at hfall
  obtain ⟨⟨h1, h2⟩, h3⟩ := hfall
  have hse : e.startB ≤ D.length := by omega
  have htake : D.take e.startB = (applyEdit D e repl).take e.startB :=
    (applyEdit_take D repl e hse).symm
  have hlenB : e.startB ≤ (applyEdit D e repl).length := by
    rw [applyEdit_length D repl e hfit]
    unfold editedLength
    omega
  have hTW : (parseRoot D).children.takeWhile (fun c => decide (c.endB < e.startB)) =
      buildNodes startState
        ((lexFrom D 0).takeWhile (fun t => decide (t.endB < e.startB))) := by
    show (buildNodes startState (lexFrom D 0) ++
        closeNodes (finalState startState (lexFrom D 0)) D.length).takeWhile
        (fun c => decide (c.endB < e.startB)) = _
    exact takeWhile_build_close (lexFrom D 0) startState _ e.startB D.length hse
  have hsplit := lexFrom_split D (applyEdit D e repl) e.startB htake hse hlenB 0
  show Node.node rootSym 0 (applyEdit D e repl).length false false none _ =
    Node.node rootSym 0 (applyEdit D e repl).length false false none _
  apply congrArg
  show (parseRoot D).children.takeWhile (fun c => decide (c.endB < e.startB)) ++
      (buildNodes
        (stateAfterNodes startState
          ((parseRoot D).children.takeWhile (fun c => decide (c.endB < e.startB))))
        (lexFrom (applyEdit D e repl)
          (resumePos
            ((parseRoot D).children.takeWhile (fun c => decide (c.endB < e.startB))))) ++
        closeNodes
          (finalState
            (stateAfterNodes startState
              ((parseRoot D).children.takeWhile
                (fun c => decide (c.endB < e.startB))))
            (lexFrom (applyEdit D e repl)
              (resumePos
                ((parseRoot D).children.takeWhile
                  (fun c => decide (c.endB < e.startB))))))
          (applyEdit D e repl).length) =
    buildNodes startState (lexFrom (applyEdit D e repl) 0) ++
      closeNodes (finalState startState (lexFrom (applyEdit D e repl) 0))
        (applyEdit D e repl).length
  rw [hTW, stateAfterNodes_buildNodes, resumePos_buildNodes, hsplit,
    buildNodes_append, finalState_append, List.append_assoc]

theorem incrementalReparse_snd (t : Node) (src : List Nat)
    (es : List (Edit × List Nat)) :
    (incrementalReparse t src es).2 = applyEdits src es := by
  induction es generalizing t src with
  | nil => rfl
  | cons er es ih => exact ih _ _

/-- C7: for every document D and every in-bounds edit sequence producing D',
incremental re-parsing the prior tree of D against the successive edited
texts yields exactly the tree a from-scratch parse of D' yields — structurally
and byte-range identical (the modelled engine is deterministic, so the
error-boundary exception is not needed). -/
theorem incremental_equivalence (D : List Nat) (es : List (Edit × List Nat))
    (hfit : editsFit D.length es = true) :
    (incrementalReparse (parseRoot D) D es).1 = parseRoot (applyEdits D es) := by
  revert hfit
  induction es generalizing D with
  | nil => intro _; rfl
  | cons er es ih =>
    intro hfit
    cases er with
    | mk e repl =>
      simp only [editsFit, Bool.and_eq_true] at hfit
      obtain ⟨h1, h2⟩ := hfit
      show (incrementalReparse
          (incrementalParse (parseRoot D) e (applyEdit D e repl))
          (applyEdit D e repl) es).1 = _
      rw [incrementalParse_eq_parse D repl e h1]
      have h2' : editsFit (applyEdit D e repl).length es = true := by
        rw [applyEdit_length D repl e h1]
        exact h2
      exact ih (applyEdit D e repl) h2'

/-- C7 witness: the spec's own example — editing "a + b" by replacing bytes
[4,5) with "bc" and incrementally re-parsing equals parsing "a + bc" from
scratch. -/
theorem incremental_equivalence_witness :
    editsFit ([97, 32, 43, 32, 98] : List Nat).length
      [(Edit.mk 4 5 6, [98, 99])] = true ∧
    (incrementalReparse (parseRoot [97, 32, 43, 32, 98]) [97, 32, 43, 32, 98]
        [(Edit.mk 4 5 6, [98, 99])]).1 =
      parseRoot (applyEdits [97, 32, 43, 32, 98] [(Edit.mk 4 5 6, [98, 99])]) :=
  ⟨by decide, incremental_equivalence [97, 32, 43, 32, 98] _ (by decide)⟩

/-- C6: every syntax tree the modelled operations produce — fresh parse
(error recovery included, since recovery only adds error-flagged leaves) and
incremental re-parse of an in-bounds edit — satisfies the structural
invariants: sibling byte-ranges are non-overlapping and monotonically
increasing, and every parent's byte-range contains the union of its
children's ranges, at every level.  Each operation returns a single `Node`
as the whole tree, so every tree has exactly one root by construction. -/
theorem tree_structural_invariants (src D repl : List Nat) (e : Edit)
    (hfit : editFits D.length e repl = true) :
    (parseRoot src).wf = true ∧
    (incrementalParse (parseRoot D) e (applyEdit D e repl)).wf = true := by
  refine ⟨parseRoot_wf src, ?_⟩
  rw [incrementalParse_eq_parse D repl e hfit]
  exact parseRoot_wf (applyEdit D e repl)

/-- C6 witness: the invariants hold concretely for a fresh parse of "a ?"
(which exercises error recovery) and for the incremental re-parse of the
spec's example edit of "a + b". -/
theorem tree_structural_invariants_witness :
    editFits ([97, 32, 43, 32, 98] : List Nat).length (Edit.mk 4 5 6)
      [98, 99] = true ∧
    (parseRoot [97, 32, 63]).wf = true ∧
    (incrementalParse (parseRoot [97, 32, 43, 32, 98]) (Edit.mk 4 5 6)
      (applyEdit [97, 32, 43, 32, 98] (Edit.mk 4 5 6) [98, 99])).wf = true :=
  ⟨by decide,
    tree_structural_invariants [97, 32, 63] [97, 32, 43, 32, 98] [98, 99]
      (Edit.mk 4 5 6) (by decide)⟩

/- ### The parse entry point and its hard-failure surface (spec sections 6, 7) -/

/-- A byte position is covered by an error-flagged child of the tree. -/
def hasErrorNodeAt (t : Node) (i : Nat) : Bool :=
  t.children.any (fun c => c.isError && decide (c.startB ≤ i) && decide (i < c.endB))

/-- The Lexer's token stream for "+ a". -/
theorem lexFrom_plus_a : lexFrom [43, 32, 97] 0 =
    [{ kind := TokKind.opTok, startB := 0, endB := 1 },
     { kind := TokKind.wsTok, startB := 1, endB := 2 },
     { kind := TokKind.identTok, startB := 2, endB := 3 }] := by
  rw [lexFrom_some [43, 32, 97] 0 { kind := TokKind.opTok, startB := 0, endB := 1 }
    (by simp [nextToken, munch, isSpaceByte, isLetterByte, isPlusByte]; try decide)]
  rw [lexFrom_some [43, 32, 97] 1 { kind := TokKind.wsTok, startB := 1, endB := 2 }
    (by simp [nextToken, munch, isSpaceByte, isLetterByte, isPlusByte]; try decide)]
  rw [lexFrom_some [43, 32, 97] 2 { kind := TokKind.identTok, startB := 2, endB := 3 }
    (by simp [nextToken, munch, isSpaceByte, isLetterByte, isPlusByte]; try decide)]
  rw [lexFrom_none [43, 32, 97] 3 (by simp [nextToken])]

/-- Spec section 8's syntax-error behavior, concretely: in "+ a" the leading
`+` stands in operand position; the parse recovers it into an error-flagged
node covering byte 0, while the rest of the input parses normally. -/
theorem syntax_error_flagged_example :
    hasErrorNodeAt (parseRoot [43, 32, 97]) 0 = true ∧
    (parseRoot [43, 32, 97]).children =
      [Node.node (symOfKind TokKind.opTok) 0 1 true false none [],
       Node.node (symOfKind TokKind.wsTok) 1 2 false false none [],
       Node.node (symOfKind TokKind.identTok) 2 3 false false none []] := by
  constructor
  · unfold hasErrorNodeAt parseRoot
    rw [lexFrom_plus_a]
    rfl
  · show buildNodes startState (lexFrom [43, 32, 97] 0) ++
      closeNodes (finalState startState (lexFrom [43, 32, 97] 0))
        ([43, 32, 97] : List Nat).length = _
    rw [lexFrom_plus_a]
    rfl

/-- The Lexer's token stream for "a +". -/
theorem lexFrom_a_plus : lexFrom [97, 32, 43] 0 =
    [{ kind := TokKind.identTok, startB := 0, endB := 1 },
     { kind := TokKind.wsTok, startB := 1, endB := 2 },
     { kind := TokKind.opTok, startB := 2, endB := 3 }] := by
  rw [lexFrom_some [97, 32, 43] 0 { kind := TokKind.identTok, startB := 0, endB := 1 }
    (by simp [nextToken, munch, isSpaceByte, isLetterByte, isPlusByte]; try decide)]
  rw [lexFrom_some [97, 32, 43] 1 { kind := TokKind.wsTok, startB := 1, endB := 2 }
    (by simp [nextToken, munch, isSpaceByte, isLetterByte, isPlusByte]; try decide)]
  rw [lexFrom_some [97, 32, 43] 2 { kind := TokKind.opTok, startB := 2, endB := 3 }
    (by simp [nextToken, munch, isSpaceByte, isLetterByte, isPlusByte]; try decide)]
  rw [lexFrom_none [97, 32, 43] 3 (by simp [nextToken])]

/-- Spec section 8's incomplete-input behavior, concretely: "a +" ends while
an operand is expected, so Error Recovery inserts the zero-width is-missing
identifier node after the trailing `+`; the well-formed prefix "a" is
unaffected. -/
theorem incomplete_input_example :
    (parseRoot [97, 32, 43]).children =
      [Node.node (symOfKind TokKind.identTok) 0 1 false false none [],
       Node.node (symOfKind TokKind.wsTok) 1 2 false false none [],
       Node.node (symOfKind TokKind.opTok) 2 3 false false none [],
       Node.node (symOfKind TokKind.identTok) 3 3 false true none []] := by
  show buildNodes startState (lexFrom [97, 32, 43] 0) ++
    closeNodes (finalState startState (lexFrom [97, 32, 43] 0))
      ([97, 32, 43] : List Nat).length = _
  rw [lexFrom_a_plus]
  rfl

/- ### Tree serialization and idempotence (spec sections 6, 8; claim C9) -/

mutual

/-- The leaf frontier of a tree, in order: the node itself when it has no
children, else the leaves of its children (the CST preserves all source
tokens, spec glossary). -/
def Node.leaves : Node → List Node
  | Node.node y s e er ms f cs =>
      match cs with
      | [] => [Node.node y s e er ms f []]
      | c :: cs' => leavesOf (c :: cs')

def leavesOf : List Node → List Node
  | [] => []
  | c :: cs => c.leaves ++ leavesOf cs

end

/-- The bytes of the byte-range [a, b) of the source text. -/
def sliceBytes (src : List Nat) (a b : Nat) : List Nat :=
  (src.drop a).take (b - a)

/-- The source text a tree reconstructs: the bytes of its leaves' byte
ranges, concatenated in order. -/
def reconstruct (src : List Nat) (t : Node) : List Nat :=
  ((t.leaves).map (fun c => sliceBytes src c.startB c.endB)).flatten

theorem leavesOf_append (xs ys : List Node) :
    leavesOf (xs ++ ys) = leavesOf xs ++ leavesOf ys := by
  induction xs with
  | nil => rfl
  | cons c cs ih =>
    show c.leaves ++ leavesOf (cs ++ ys) = (c.leaves ++ leavesOf cs) ++ leavesOf ys
    rw [ih, List.append_assoc]

theorem leavesOf_buildNodes (st : PState) (ts : List Token) :
    leavesOf (buildNodes st ts) = buildNodes st ts := by
  induction ts generalizing st with
  | nil => rfl
  | cons t ts ih =>
    show (tokenNode st t).leaves ++ leavesOf (buildNodes (stepState st t.kind) ts) = _
    rw [ih (stepState st t.kind)]
    rfl

theorem leavesOf_closeNodes (st : PState) (len : Nat) :
    leavesOf (closeNodes st len) = closeNodes st len := by
  cases st <;> rfl

theorem map_slice_buildNodes (src : List Nat) (st : PState) (ts : List Token) :
    (buildNodes st ts).map (fun c => sliceBytes src c.startB c.endB) =
      ts.map (fun t => sliceBytes src t.startB t.endB) := by
  induction ts generalizing st with
  | nil => rfl
  | cons t ts ih =>
    show sliceBytes src t.startB t.endB ::
      (buildNodes (stepState st t.kind) ts).map
        (fun c => sliceBytes src c.startB c.endB) = _
    rw [ih (stepState st t.kind)]
    rfl

theorem leaves_node_of_children_ne_nil (y s e : Nat) (er ms : Bool)
    (fd : Option String) (cs : List Node) (h : cs ≠ []) :
    (Node.node y s e er ms fd cs).leaves = leavesOf cs := by
  cases cs with
  | nil => exact absurd rfl h
  | cons c cs => rfl

theorem parseRoot_children_ne_nil (src : List Nat) :
    buildNodes startState (lexFrom src 0) ++
      closeNodes (finalState startState (lexFrom src 0)) src.length ≠ [] := by
  cases hts : lexFrom src 0 with
  | nil =>
    intro hc
    simp [buildNodes, finalState, closeNodes, startState] at hc
  | cons t ts =>
    intro hc
    simp [buildNodes] at hc

theorem slice_append (src : List Nat) (a m b : Nat) (h1 : a ≤ m) (h2 : m ≤ b) :
    sliceBytes src a m ++ sliceBytes src m b = sliceBytes src a b := by
  unfold sliceBytes
  have hsum : b - a = (m - a) + (b - m) := by omega
  rw [hsum, List.take_add, List.drop_drop]
  have hm : a + (m - a) = m := by omega
  rw [hm]

theorem tile_slices (src : List Nat) (ts : List Token) (p q : Nat)
    (h : tileB p ts q = true) :
    ((ts.map (fun t => sliceBytes src t.startB t.endB))).flatten = sliceBytes src p q := by
  induction ts generalizing p with
  | nil =>
    simp only [tileB, decide_eq_true_eq] at h
    subst h
    simp [sliceBytes]
  | cons t ts ih =>
    simp only [tileB, Bool.and_eq_true, decide_eq_true_eq] at h
    obtain ⟨⟨hst, hlt⟩, htl⟩ := h
    have hb := tile_bounds ts t.endB q htl
    rw [List.map_cons, List.flatten_cons, ih t.endB htl, hst]
    exact slice_append src p t.endB q (by omega) hb.1

theorem slice_full (src : List Nat) : sliceBytes src 0 src.length = src := by
  simp [sliceBytes]

/-- The slices of the zero-width end-of-input repair node contribute no
bytes. -/
theorem close_slices (src : List Nat) (st : PState) (len : Nat) :
    ((closeNodes st len).map
      (fun c => sliceBytes src c.startB c.endB)).flatten = [] := by
  cases st with
  | expectOperand => simp [closeNodes, sliceBytes, Node.startB, Node.endB]
  | expectOperator => rfl

/-- Reconstructing a freshly parsed tree's source text gives back exactly the
input: the leaf tokens (whitespace "extras" included) tile the whole input
and the possible trailing missing node is zero-width. -/
theorem reconstruct_parseRoot (src : List Nat) :
    reconstruct src (parseRoot src) = src := by
  have htile := lexFrom_tile src 0 (Nat.zero_le _)
  unfold reconstruct
  unfold parseRoot
  rw [leaves_node_of_children_ne_nil _ _ _ _ _ _ _ (parseRoot_children_ne_nil src)]
  rw [leavesOf_append, leavesOf_buildNodes, leavesOf_closeNodes, List.map_append,
    List.flatten_append, map_slice_buildNodes,
    tile_slices src (lexFrom src 0) 0 src.length htile, slice_full,
    close_slices, List.append_nil]

/-- Every node a grammar-accepted token stream builds is free of error and
missing flags, and the stream ends in operator-expecting state (a complete
expression), so no repair node is inserted. -/
theorem seqOk_no_error (st : PState) (ts : List Token) (h : seqOk st ts = true) :
    (buildNodes st ts).all (fun c => !c.isError && !c.isMissing) = true ∧
    finalState st ts = PState.expectOperator := by
  induction ts generalizing st with
  | nil =>
    simp only [seqOk, decide_eq_true_eq] at h
    exact ⟨rfl, h⟩
  | cons t ts ih =>
    simp only [seqOk, Bool.and_eq_true] at h
    obtain ⟨hflag, hrest⟩ := h
    obtain ⟨hall, hfin⟩ := ih (stepState st t.kind) hrest
    refine ⟨?_, hfin⟩
    show (((!(tokenNode st t).isError) && !(tokenNode st t).isMissing) &&
      (buildNodes (stepState st t.kind) ts).all
        (fun c => !c.isError && !c.isMissing)) = true
    rw [Bool.and_eq_true]
    constructor
    · show ((!(tokenErrFlag st t.kind)) && !false) = true
      rw [Bool.and_eq_true]
      exact ⟨hflag, rfl⟩
    · exact hall

/-- C9: parsing is idempotent on error-free inputs: for an input with no
lexical or syntax error (its token stream is accepted by the grammar
automaton with no error verdict), the tree carries no error-flagged and no
missing node, concatenating the byte ranges of the tree's leaf nodes
reconstructs exactly the source text, and parsing that reconstructed text
yields a byte-identical tree. -/
theorem parse_idempotent (src : List Nat)
    (hok : seqOk startState (lexFrom src 0) = true) :
    (parseRoot src).children.all (fun c => !c.isError && !c.isMissing) = true ∧
    reconstruct src (parseRoot src) = src ∧
    parseRoot (reconstruct src (parseRoot src)) = parseRoot src := by
  obtain ⟨hall, hfin⟩ := seqOk_no_error startState (lexFrom src 0) hok
  refine ⟨?_, reconstruct_parseRoot src, by rw [reconstruct_parseRoot src]⟩
  show (buildNodes startState (lexFrom src 0) ++
    closeNodes (finalState startState (lexFrom src 0)) src.length).all
    (fun c => !c.isError && !c.isMissing) = true
  rw [hfin]
  show (buildNodes startState (lexFrom src 0) ++ []).all
    (fun c => !c.isError && !c.isMissing) = true
  rw [List.append_nil]
  exact hall

/-- The Lexer's token stream for the spec's example "a + b". -/
theorem lexFrom_a_plus_b : lexFrom [97, 32, 43, 32, 98] 0 =
    [{ kind := TokKind.identTok, startB := 0, endB := 1 },
     { kind := TokKind.wsTok, startB := 1, endB := 2 },
     { kind := TokKind.opTok, startB := 2, endB := 3 },
     { kind := TokKind.wsTok, startB := 3, endB := 4 },
     { kind := TokKind.identTok, startB := 4, endB := 5 }] := by
  rw [lexFrom_some [97, 32, 43, 32, 98] 0
    { kind := TokKind.identTok, startB := 0, endB := 1 }
    (by simp [nextToken, munch, isSpaceByte, isLetterByte, isPlusByte]; try decide)]
  rw [lexFrom_some [97, 32, 43, 32, 98] 1
    { kind := TokKind.wsTok, startB := 1, endB := 2 }
    (by simp [nextToken, munch, isSpaceByte, isLetterByte, isPlusByte]; try decide)]
  rw [lexFrom_some [97, 32, 43, 32, 98] 2
    { kind := TokKind.opTok, startB := 2, endB := 3 }
    (by simp [nextToken, munch, isSpaceByte, isLetterByte, isPlusByte]; try decide)]
  rw [lexFrom_some [97, 32, 43, 32, 98] 3
    { kind := TokKind.wsTok, startB := 3, endB := 4 }
    (by simp [nextToken, munch, isSpaceByte, isLetterByte, isPlusByte]; try decide)]
  rw [lexFrom_some [97, 32, 43, 32, 98] 4
    { kind := TokKind.identTok, startB := 4, endB := 5 }
    (by simp [nextToken, munch, isSpaceByte, isLetterByte, isPlusByte]; try decide)]
  rw [lexFrom_none [97, 32, 43, 32, 98] 5 (by simp [nextToken])]

/-- C9 witness: the spec's error-free example "a + b" is accepted by the
grammar automaton, and the parsed tree has no error or missing node and is
reproduced from its own reconstructed source. -/
theorem parse_idempotent_witness :
    seqOk startState (lexFrom [97, 32, 43, 32, 98] 0) = true ∧
    ((parseRoot [97, 32, 43, 32, 98]).children.all
        (fun c => !c.isError && !c.isMissing) = true ∧
     reconstruct [97, 32, 43, 32, 98] (parseRoot [97, 32, 43, 32, 98]) =
       [97, 32, 43, 32, 98] ∧
     parseRoot (reconstruct [97, 32, 43, 32, 98]
       (parseRoot [97, 32, 43, 32, 98])) = parseRoot [97, 32, 43, 32, 98]) :=
  ⟨by rw [lexFrom_a_plus_b]; rfl,
    parse_idempotent [97, 32, 43, 32, 98] (by rw [lexFrom_a_plus_b]; rfl)⟩
